import Mathlib

/-!
Verification of the MicroLua event-to-thread dispatch engine
(`mlua.event`, embedded in `src/lib/pico.time.c`).

The engine keeps a fixed table of `NUM_EVENTS` event slots: a global
pending bitmap (one bit per slot, packed into `EVENTS_SIZE` 32-bit
words) and one claimed-mask per core.  A watcher registry (a Lua table
in the C code) maps slot ids to zero, one, or a set of watcher
threads.  We embed the C functions as pure state transformers: machine
words become `Nat` with explicit 32-bit complements where the C code
uses `~`, Lua threads become `Nat` handles, and the watcher table
becomes a function from slot id to a `Watchers` value.
-/

namespace MLua

/-- Constant NUM_EVENTS from the source: the table has 128 slots. -/
abbrev NUM_EVENTS : Nat := 128

/-- Constant NUM_CORES: the RP2040 target has two cores. -/
abbrev NUM_CORES : Nat := 2

/-- Constant EVENTS_SIZE from the source: number of 32-bit words. -/
abbrev EVENTS_SIZE : Nat := (NUM_EVENTS + 31) / 32

/-- Mask of a 32-bit word, used to model the C `~` complement on
`uint32_t` values (`~m` is `m ^^^ WORD_MASK`). -/
abbrev WORD_MASK : Nat := 2 ^ 32 - 1

/-- The struct EventState of the source: the global pending bitmap and
the per-core claimed-masks, each an array of `EVENTS_SIZE` words. -/
structure EventState where
  pending : Fin EVENTS_SIZE → Nat
  mask : Fin NUM_CORES → Fin EVENTS_SIZE → Nat

/-- The all-zero initial state (C static zero initialization). -/
def EventState.zero : EventState := ⟨fun _ => 0, fun _ _ => 0⟩

/-- Word index of a slot id (`e / 32` in the source). -/
def evBlock (e : Fin NUM_EVENTS) : Fin EVENTS_SIZE :=
  ⟨e.val / 32, by have h := e.isLt; simp only [NUM_EVENTS] at h
                  simp only [EVENTS_SIZE, NUM_EVENTS]; omega⟩

/-- Bit `e` of the global pending bitmap. -/
def pendingBit (s : EventState) (e : Fin NUM_EVENTS) : Bool :=
  (s.pending (evBlock e)).testBit (e.val % 32)

/-- Bit `e` of core `c`'s claimed-mask. -/
def maskBit (s : EventState) (c : Fin NUM_CORES) (e : Fin NUM_EVENTS) : Bool :=
  (s.mask c (evBlock e)).testBit (e.val % 32)

/-- Modelled from the spec: `MLUA_EVENT_UNSET`, the "unset handle"
sentinel of `mlua/event.h` (the header is not among the sources).  Any
value outside the valid id range `[0, NUM_EVENTS)` serves; we use the
largest `uint32_t` value. -/
def MLUA_EVENT_UNSET : Nat := 2 ^ 32 - 1

/-- Function mlua_event_set of the source: a no-op for a disabled or
out-of-range handle; for a valid id it sets the slot's pending bit
under the lock and issues the `__sev` wake signal.  The returned `Bool`
records whether `__sev` was issued. -/
def mlua_event_set (s : EventState) (ev : Nat) : EventState × Bool :=
  if h : ev < NUM_EVENTS then
    let b := evBlock ⟨ev, h⟩
    let w := s.pending b ||| (1 <<< (ev % 32))
    ({ s with pending := Function.update s.pending b w }, true)
  else (s, false)

/-- Function mlua_event_clear of the source: clears the slot's pending
bit (`pending[e / 32] &= ~(1u << (e % 32))`); a no-op out of range. -/
def mlua_event_clear (s : EventState) (ev : Nat) : EventState :=
  if h : ev < NUM_EVENTS then
    let b := evBlock ⟨ev, h⟩
    let w := s.pending b &&& ((1 <<< (ev % 32)) ^^^ WORD_MASK)
    { s with pending := Function.update s.pending b w }
  else s

/-- Union over all cores of the claimed-masks of one word, as computed
by the inner loop of `mlua_event_claim`. -/
def unionMask (s : EventState) (b : Fin EVENTS_SIZE) : Nat :=
  (List.finRange NUM_CORES).foldl (fun m c => m ||| s.mask c b) 0

/-- Bit scan loop with an explicit iteration bound (structural fuel,
so that the definition evaluates by kernel reduction): the lowest bit
position in `[i, i + fuel)` where `mask` is clear. -/
def ffsClear32Go (mask : Nat) : Nat → Nat → Option Nat
  | _, 0 => none
  | i, fuel + 1 => if mask.testBit i then ffsClear32Go mask (i + 1) fuel else some i

/-- Model of `__builtin_ffs(~mask)` on a `uint32_t` word: the lowest
bit position in `[i, 32)` where `mask` is clear, or `none` when those
bits are all set (ffs returns 0).  The source calls it with `i = 0`. -/
def ffsClear32 (mask : Nat) (i : Nat) : Option Nat :=
  ffsClear32Go mask i (32 - i)

/-- The block loop of `mlua_event_claim`, with an explicit iteration
bound: the first word from block `blk` on with a free bit, with the
lowest free bit position in it. -/
def claimScanGo (s : EventState) : Nat → Nat → Option (Fin EVENTS_SIZE × Nat)
  | _, 0 => none
  | blk, fuel + 1 =>
    if h : blk < EVENTS_SIZE then
      match ffsClear32 (unionMask s ⟨blk, h⟩) 0 with
      | some idx => some (⟨blk, h⟩, idx)
      | none => claimScanGo s (blk + 1) fuel
    else none

/-- The block loop of `mlua_event_claim` from block `blk` on: the
first word with a free bit, with the lowest free bit position in it. -/
def claimScan (s : EventState) (blk : Nat) : Option (Fin EVENTS_SIZE × Nat) :=
  claimScanGo s blk EVENTS_SIZE

/-- Function mlua_event_claim of the source.  Takes the current state,
the calling core and the current value of the `MLuaEvent` handle;
returns the error message (or `none` on success), the new state and
the new handle value. -/
def mlua_event_claim (s : EventState) (core : Fin NUM_CORES) (ev : Nat) :
    Option String × EventState × Nat :=
  if ev < NUM_EVENTS then (some "event already claimed", s, ev)
  else
    match claimScan s 0 with
    | some (b, idx) =>
        let row := Function.update (s.mask core) b (s.mask core b ||| (1 <<< idx))
        (none, { s with mask := Function.update s.mask core row }, b.val * 32 + idx)
    | none => (some "no events available", s, ev)

/-- A watcher-registry entry: the Lua table maps a slot id to nothing
(`nil`), a single thread, or a table of threads used as a set. -/
inductive Watchers where
  | nowatcher : Watchers
  | single : Nat → Watchers
  | multi : Finset Nat → Watchers
deriving DecidableEq

/-- The watcher registry: the Lua table stored in the Lua registry
under the address of `event_state`, keyed by slot id. -/
abbrev Reg := Nat → Watchers

/-- Function mlua_event_unclaim of the source: for a valid handle whose
bit is set in the calling core's mask, clears that bit, resets the
handle to `MLUA_EVENT_UNSET` and removes the slot's entry from the
watcher registry; otherwise changes nothing.  Returns the new state,
registry and handle. -/
def mlua_event_unclaim (s : EventState) (reg : Reg) (core : Fin NUM_CORES)
    (ev : Nat) : EventState × Reg × Nat :=
  if h : ev < NUM_EVENTS then
    let b := evBlock ⟨ev, h⟩
    let pmask := s.mask core b
    let mask := pmask &&& ((1 <<< (ev % 32)) ^^^ WORD_MASK)
    if mask = pmask then (s, reg, ev)
    else
      let row := Function.update (s.mask core) b mask
      ({ s with mask := Function.update s.mask core row },
       Function.update reg ev Watchers.nowatcher, MLUA_EVENT_UNSET)
  else (s, reg, ev)

/-- The switch of `mlua_event_watch` on one registry entry: no watcher
stores the single thread; a single distinct watcher is promoted to a
two-element set; a set gets the thread inserted; a thread already
present leaves the entry unchanged. -/
def watchEntry (t : Nat) : Watchers → Watchers
  | .nowatcher => .single t
  | .single u => if u = t then .single u else .multi {u, t}
  | .multi s => .multi (insert t s)

/-- Function mlua_event_watch of the source: raises for an out-of-range
(disabled) event or an unyieldable thread, otherwise updates the
slot's registry entry via `watchEntry`. -/
def mlua_event_watch (yieldable : Bool) (reg : Reg) (t : Nat) (ev : Nat) :
    Except String Reg :=
  if ev ≥ NUM_EVENTS then .error "watching disabled event"
  else if !yieldable then .error "watching event in unyieldable thread"
  else .ok (Function.update reg ev (watchEntry t (reg ev)))

/-- The switch of `mlua_event_unwatch` on one registry entry: a single
watcher equal to the thread is removed; a set has the thread erased
(the table entry remains, even when the set becomes empty); anything
else is unchanged. -/
def unwatchEntry (t : Nat) : Watchers → Watchers
  | .nowatcher => .nowatcher
  | .single u => if u = t then .nowatcher else .single u
  | .multi s => .multi (s.erase t)

/-- Function mlua_event_unwatch of the source: a no-op out of range,
otherwise updates the slot's registry entry via `unwatchEntry`. -/
def mlua_event_unwatch (reg : Reg) (t : Nat) (ev : Nat) : Reg :=
  if ev ≥ NUM_EVENTS then reg
  else Function.update reg ev (unwatchEntry t (reg ev))

/-- Threads resumed for one registry entry, in the order dispatch
iterates them: none, the single thread, or the elements of the set
(order of `lua_next` over a table is unspecified; we determinize by
sorting). -/
def watcherThreads : Watchers → List Nat
  | .nowatcher => []
  | .single t => [t]
  | .multi s => s.sort (· ≤ ·)

/-- Set bit positions of a 32-bit word, lowest first, as the
`__builtin_ffs` loop of `mod_dispatch` extracts them. -/
def blockSlots (active : Nat) : List Nat :=
  (List.range 32).filter (fun i => active.testBit i)

/-- Accumulator of one dispatch pass: the state so far, the list of
`(slot, thread)` resumptions performed, and the wake flag. -/
structure PassResult where
  state : EventState
  resumed : List (Nat × Nat)
  wake : Bool

/-- The `(slot, thread)` resumptions the inner loop of `mod_dispatch`
performs for one block: for every bit both pending and owned by the
calling core, lowest first, every watcher of that slot. -/
def blockPairs (reg : Reg) (core : Fin NUM_CORES) (s : EventState)
    (b : Fin EVENTS_SIZE) : List (Nat × Nat) :=
  (blockSlots (s.pending b &&& s.mask core b)).flatMap (fun i =>
    (watcherThreads (reg (b.val * 32 + i))).map (fun t => (b.val * 32 + i, t)))

/-- One iteration of the block loop of `mod_dispatch`: snapshot the
pending word, clear the bits owned by the calling core from the global
map, and resume the watchers of every pending-and-owned bit, lowest
bit first, or-ing each watcher's progress report into the wake flag. -/
def passStep (resume : Nat → Bool) (core : Fin NUM_CORES) (reg : Reg)
    (acc : PassResult) (b : Fin EVENTS_SIZE) : PassResult :=
  let w := acc.state.pending b &&& (acc.state.mask core b ^^^ WORD_MASK)
  let st := { acc.state with pending := Function.update acc.state.pending b w }
  let pairs := blockPairs reg core acc.state b
  { state := st, resumed := acc.resumed ++ pairs,
    wake := pairs.foldl (fun w p => w || resume p.2) acc.wake }

/-- One full drain pass of `mod_dispatch` over all blocks. -/
def dispatchPass (resume : Nat → Bool) (core : Fin NUM_CORES) (reg : Reg)
    (s : EventState) : PassResult :=
  (List.finRange EVENTS_SIZE).foldl (passStep resume core reg) ⟨s, [], false⟩

/-- Modelled from the SDK header pico/time.h: `at_the_end_of_time` is
the largest representable instant (`INT64_MAX` microseconds), the "no
deadline" sentinel. -/
def atTheEndOfTime : Nat := 2 ^ 63 - 1

/-- Modelled from the SDK header pico/time.h: `nil_time` is instant 0,
the "already past" sentinel. -/
def nilTime : Nat := 0

/-- Modelled from the SDK: `is_nil_time(t)` tests `t == nil_time`. -/
def is_nil_time (t : Nat) : Bool := t = nilTime

/-- Modelled from the SDK: `is_at_the_end_of_time(t)` tests against the
end-of-time sentinel. -/
def is_at_the_end_of_time (t : Nat) : Bool := t = atTheEndOfTime

/-- Modelled from the SDK: `time_reached(t)` holds when the current
time has reached `t`. -/
def time_reached (t now : Nat) : Bool := t ≤ now

/-- External events injected between dispatch passes: each id is set
pending through `mlua_event_set` (interrupt handlers and the other
core call it asynchronously). -/
def injectEvents (s : EventState) (evs : List Nat) : EventState :=
  evs.foldl (fun st e => (mlua_event_set st e).1) s

/-- Environment of one dispatch iteration: the event ids set pending
before the pass, and the clock value at the deadline check. -/
structure IterEnv where
  inject : List Nat
  now : Nat

/-- The low-power wait a dispatch iteration enters when it does not
return: `__wfe()` for the end-of-time deadline, or
`best_effort_wfe_or_timeout(deadline)` for a finite one. -/
inductive WaitAction where
  | wfe : WaitAction
  | wfeTimeout : Nat → WaitAction
deriving DecidableEq

/-- Result of a terminating run of the dispatch loop: the index of the
final iteration, the final state, the waits performed between passes,
and the final pass's wake flag. -/
structure LoopResult where
  iters : Nat
  state : EventState
  acts : List WaitAction
  wake : Bool

/-- Function mod_dispatch of the source, as a fuel-indexed loop: each
iteration absorbs the injected events, runs one drain pass, returns
when a watcher reported progress or the deadline is nil or reached,
and otherwise enters the low-power wait and loops.  `none` means the
fuel ran out before the loop returned. -/
def mod_dispatch (resume : Nat → Bool) (core : Fin NUM_CORES) (reg : Reg)
    (deadline : Nat) (env : Nat → IterEnv) :
    Nat → Nat → EventState → Option LoopResult
  | _, 0, _ => none
  | i, fuel + 1, s =>
    let s1 := injectEvents s (env i).inject
    let pass := dispatchPass resume core reg s1
    if pass.wake || is_nil_time deadline || time_reached deadline (env i).now then
      some ⟨i, pass.state, [], pass.wake⟩
    else
      let act := if is_at_the_end_of_time deadline then WaitAction.wfe
                 else WaitAction.wfeTimeout deadline
      (mod_dispatch resume core reg deadline env (i + 1) fuel pass.state).map
        (fun r => { r with acts := act :: r.acts })

/-- The retry loop of `mlua_event_wait` (`mlua_event_wait_1` and
`mlua_event_wait_2` of the source): suspend, re-invoke the try
function on resume (`tryF k` is the result of its `k`-th invocation),
loop while it returns a negative result, and on a non-negative result
unwatch the event and return.  Returns the result, the final registry
and the index of the final try invocation; `none` when the fuel ran
out while the try function kept reporting "not ready". -/
def waitLoop (tryF : Nat → Int) (ev : Nat) (t : Nat) (reg : Reg) :
    Nat → Nat → Option (Int × Reg × Nat)
  | _, 0 => none
  | k, fuel + 1 =>
    let res := tryF k
    if res < 0 then waitLoop tryF ev t reg (k + 1) fuel
    else some (res, mlua_event_unwatch reg t ev, k)

/-- Function mlua_event_wait of the source: raises on an unclaimed
(out-of-range) event handle before invoking anything; calls the try
function once and returns a non-negative result immediately without
touching the registry; otherwise registers the calling thread as a
watcher and enters the suspend/retry loop. -/
def mlua_event_wait (yieldable : Bool) (tryF : Nat → Int) (ev : Nat) (t : Nat)
    (reg : Reg) (fuel : Nat) : Except String (Option (Int × Reg × Nat)) :=
  if ev ≥ NUM_EVENTS then .error "wait for unclaimed event"
  else
    let res := tryF 0
    if 0 ≤ res then .ok (some (res, reg, 0))
    else
      match mlua_event_watch yieldable reg t ev with
      | .error e => .error e
      | .ok reg' => .ok (waitLoop tryF ev t reg' 1 fuel)

/-! ### Bit-level helpers -/

/-- Slot `e` is free: no core's claimed-mask has its bit set. -/
def slotFree (s : EventState) (e : Fin NUM_EVENTS) : Prop :=
  ∀ c, maskBit s c e = false

instance (s : EventState) (e : Fin NUM_EVENTS) : Decidable (slotFree s e) := by
  unfold slotFree; infer_instance

theorem testBit_compl32 (m i : Nat) (h : i < 32) :
    (m ^^^ WORD_MASK).testBit i = !(m.testBit i) := by
  rw [Nat.testBit_xor, Nat.testBit_two_pow_sub_one]
  simp [h]

theorem testBit_one_shl (j i : Nat) : ((1 <<< j) : Nat).testBit i = decide (j = i) := by
  rw [Nat.one_shiftLeft, Nat.testBit_two_pow]

theorem unionMask_eq (s : EventState) (b : Fin EVENTS_SIZE) :
    unionMask s b = (0 ||| s.mask 0 b) ||| s.mask 1 b := rfl

theorem unionMask_testBit (s : EventState) (b : Fin EVENTS_SIZE) (i : Nat) :
    (unionMask s b).testBit i = ((s.mask 0 b).testBit i || (s.mask 1 b).testBit i) := by
  rw [unionMask_eq, Nat.testBit_lor, Nat.testBit_lor]
  simp

theorem slotFree_iff (s : EventState) (e : Fin NUM_EVENTS) :
    slotFree s e ↔ (unionMask s (evBlock e)).testBit (e.val % 32) = false := by
  rw [unionMask_testBit]
  unfold slotFree maskBit
  rw [Fin.forall_fin_two]
  simp

/-! ### Specification of the ffs-based scans -/

theorem ffsClear32Go_some (m : Nat) :
    ∀ fuel i j, ffsClear32Go m i fuel = some j →
      i ≤ j ∧ j < i + fuel ∧ m.testBit j = false ∧
        ∀ k, i ≤ k → k < j → m.testBit k = true := by
  intro fuel
  induction fuel with
  | zero => intro i j h; exact absurd h (by simp [ffsClear32Go])
  | succ fuel ih =>
    intro i j h
    simp only [ffsClear32Go] at h
    by_cases hb : m.testBit i
    · rw [if_pos hb] at h
      obtain ⟨h1, h2, h3, h4⟩ := ih (i + 1) j h
      refine ⟨by omega, by omega, h3, fun k hk1 hk2 => ?_⟩
      rcases Nat.eq_or_lt_of_le hk1 with hk | hk
      · exact hk ▸ hb
      · exact h4 k (by omega) hk2
    · rw [if_neg hb] at h
      obtain rfl := Option.some_injective _ h
      exact ⟨Nat.le_refl i, by omega, by simpa using hb, fun k hk1 hk2 => by omega⟩

theorem ffsClear32Go_none (m : Nat) :
    ∀ fuel i, ffsClear32Go m i fuel = none →
      ∀ k, i ≤ k → k < i + fuel → m.testBit k = true := by
  intro fuel
  induction fuel with
  | zero => intro i _ k hk1 hk2; omega
  | succ fuel ih =>
    intro i h k hk1 hk2
    simp only [ffsClear32Go] at h
    by_cases hb : m.testBit i
    · rw [if_pos hb] at h
      rcases Nat.eq_or_lt_of_le hk1 with hk | hk
      · exact hk ▸ hb
      · exact ih (i + 1) h k (by omega) (by omega)
    · rw [if_neg hb] at h
      exact absurd h (by simp)

theorem ffsClear32_some {m i j : Nat} (hj : ffsClear32 m i = some j) :
    i ≤ j ∧ j < 32 ∧ m.testBit j = false ∧
      ∀ k, i ≤ k → k < j → m.testBit k = true := by
  unfold ffsClear32 at hj
  by_cases hi : i ≤ 32
  · obtain ⟨h1, h2, h3, h4⟩ := ffsClear32Go_some m (32 - i) i j hj
    exact ⟨h1, by omega, h3, h4⟩
  · exfalso
    rw [show 32 - i = 0 by omega] at hj
    exact absurd hj (by simp [ffsClear32Go])

theorem ffsClear32_none {m i : Nat} (hn : ffsClear32 m i = none) :
    ∀ k, i ≤ k → k < 32 → m.testBit k = true := by
  unfold ffsClear32 at hn
  intro k hk1 hk2
  exact ffsClear32Go_none m (32 - i) i hn k hk1 (by omega)

theorem claimScanGo_some (s : EventState) :
    ∀ fuel blk (b : Fin EVENTS_SIZE) idx,
      claimScanGo s blk fuel = some (b, idx) →
      blk ≤ b.val ∧ ffsClear32 (unionMask s b) 0 = some idx ∧
        ∀ b' : Fin EVENTS_SIZE, blk ≤ b'.val → b'.val < b.val →
          ffsClear32 (unionMask s b') 0 = none := by
  intro fuel
  induction fuel with
  | zero => intro blk b idx h; exact absurd h (by simp [claimScanGo])
  | succ fuel ih =>
    intro blk b idx h
    simp only [claimScanGo] at h
    by_cases hblk : blk < EVENTS_SIZE
    · rw [dif_pos hblk] at h
      rcases hf : ffsClear32 (unionMask s ⟨blk, hblk⟩) 0 with _ | i
      · rw [hf] at h
        obtain ⟨h1, h2, h3⟩ := ih (blk + 1) b idx h
        refine ⟨by omega, h2, fun b' hb1 hb2 => ?_⟩
        rcases Nat.eq_or_lt_of_le hb1 with hb | hb
        · have hbb : b' = ⟨blk, hblk⟩ := Fin.ext hb.symm
          exact hbb ▸ hf
        · exact h3 b' (by omega) hb2
      · rw [hf] at h
        have heq := Option.some_injective _ h
        have hb : (⟨blk, hblk⟩ : Fin EVENTS_SIZE) = b := congrArg Prod.fst heq
        have hi : i = idx := congrArg Prod.snd heq
        subst hb; subst hi
        refine ⟨Nat.le_refl blk, hf, fun b' hb1 hb2 => ?_⟩
        simp only [Fin.val_mk] at hb2
        omega
    · rw [dif_neg hblk] at h
      exact absurd h (by simp)

theorem claimScanGo_none (s : EventState) :
    ∀ fuel blk, EVENTS_SIZE ≤ blk + fuel → claimScanGo s blk fuel = none →
      ∀ b : Fin EVENTS_SIZE, blk ≤ b.val →
        ffsClear32 (unionMask s b) 0 = none := by
  intro fuel
  induction fuel with
  | zero =>
    intro blk h _ b hb
    have := b.isLt
    simp only [EVENTS_SIZE, NUM_EVENTS] at *
    omega
  | succ fuel ih =>
    intro blk h hn b hb
    simp only [claimScanGo] at hn
    by_cases hblk : blk < EVENTS_SIZE
    · rw [dif_pos hblk] at hn
      rcases hf : ffsClear32 (unionMask s ⟨blk, hblk⟩) 0 with _ | i
      · rw [hf] at hn
        rcases Nat.eq_or_lt_of_le hb with hbe | hbl
        · have hbb : b = ⟨blk, hblk⟩ := Fin.ext hbe.symm
          exact hbb ▸ hf
        · exact ih (blk + 1) (by omega) hn b (by omega)
      · rw [hf] at hn
        exact absurd hn (by simp)
    · have := b.isLt; omega


/-! ### Slot-level characterization of the claim scan -/

theorem evBlock_val (e : Fin NUM_EVENTS) : (evBlock e).val = e.val / 32 := rfl

theorem claimScan_zero_some {s : EventState} {b : Fin EVENTS_SIZE} {idx : Nat}
    (h : claimScan s 0 = some (b, idx)) :
    idx < 32 ∧ b.val * 32 + idx < NUM_EVENTS ∧
      (unionMask s b).testBit idx = false ∧
      ∀ e : Fin NUM_EVENTS, e.val < b.val * 32 + idx →
        (unionMask s (evBlock e)).testBit (e.val % 32) = true := by
  unfold claimScan at h
  obtain ⟨-, hf, hprev⟩ := claimScanGo_some s EVENTS_SIZE 0 b idx h
  obtain ⟨-, hidx, hbit, hmin⟩ := ffsClear32_some hf
  have hb := b.isLt
  refine ⟨hidx, by simp only [EVENTS_SIZE, NUM_EVENTS] at *; omega, hbit, ?_⟩
  intro e he
  by_cases hblk : e.val / 32 < b.val
  · have hnone := hprev (evBlock e) (Nat.zero_le _) (by rw [evBlock_val]; exact hblk)
    exact ffsClear32_none hnone (e.val % 32) (Nat.zero_le _) (Nat.mod_lt _ (by omega))
  · have h1 : e.val / 32 = b.val := by omega
    have h2 : e.val % 32 < idx := by omega
    have h3 : evBlock e = b := Fin.ext (by rw [evBlock_val]; exact h1)
    rw [h3]
    exact hmin (e.val % 32) (Nat.zero_le _) h2

theorem claimScan_zero_none {s : EventState} (h : claimScan s 0 = none)
    (e : Fin NUM_EVENTS) :
    (unionMask s (evBlock e)).testBit (e.val % 32) = true := by
  unfold claimScan at h
  have hnone := claimScanGo_none s EVENTS_SIZE 0 (by omega) h (evBlock e)
    (Nat.zero_le _)
  exact ffsClear32_none hnone (e.val % 32) (Nat.zero_le _) (Nat.mod_lt _ (by omega))

theorem claimScan_isSome_of_free {s : EventState} {e : Fin NUM_EVENTS}
    (hfree : slotFree s e) : (claimScan s 0).isSome := by
  rcases h : claimScan s 0 with _ | p
  · exfalso
    have ht := claimScan_zero_none h e
    rw [slotFree_iff] at hfree
    rw [hfree] at ht
    exact absurd ht (by simp)
  · simp

theorem claimScan_lowest_free {s : EventState} {b : Fin EVENTS_SIZE} {idx : Nat}
    (h : claimScan s 0 = some (b, idx)) :
    ∃ he : b.val * 32 + idx < NUM_EVENTS,
      slotFree s ⟨b.val * 32 + idx, he⟩ ∧
      ∀ e : Fin NUM_EVENTS, e.val < b.val * 32 + idx → ¬ slotFree s e := by
  obtain ⟨hidx, h128, hbit, hlow⟩ := claimScan_zero_some h
  refine ⟨h128, ?_, ?_⟩
  · rw [slotFree_iff]
    have h1 : evBlock ⟨b.val * 32 + idx, h128⟩ = b := Fin.ext (by
      rw [evBlock_val]; simp only [Fin.val_mk]; omega)
    have h2 : (⟨b.val * 32 + idx, h128⟩ : Fin NUM_EVENTS).val % 32 = idx := by
      simp only [Fin.val_mk]; omega
    rw [h1, h2]
    exact hbit
  · intro e he hfree
    rw [slotFree_iff] at hfree
    rw [hlow e he] at hfree
    exact absurd hfree (by simp)

/-! ### Bit-level behaviour of set, clear and unclaim -/

theorem slot_eq_of_parts {a b : Nat} (_ha : a < NUM_EVENTS) (_hb : b < NUM_EVENTS)
    (h1 : a / 32 = b / 32) (h2 : a % 32 = b % 32) : a = b := by omega

theorem mlua_event_set_pendingBit {s : EventState} {ev : Nat}
    (h : ev < NUM_EVENTS) (e' : Fin NUM_EVENTS) :
    pendingBit (mlua_event_set s ev).1 e' =
      (pendingBit s e' || decide (e'.val = ev)) := by
  unfold mlua_event_set pendingBit
  rw [dif_pos h]
  by_cases hbe : evBlock e' = evBlock ⟨ev, h⟩
  · rw [hbe]
    simp only [Function.update_same, Nat.testBit_lor, testBit_one_shl]
    have hb : e'.val / 32 = ev / 32 := by
      have := congrArg Fin.val hbe
      rw [evBlock_val, evBlock_val] at this
      simpa using this
    congr 1
    rw [decide_eq_decide]
    constructor
    · intro hm
      exact slot_eq_of_parts e'.isLt h hb hm.symm
    · intro hm; rw [hm]
  · simp only [Function.update_noteq hbe]
    have hne : e'.val ≠ ev := by
      intro hm
      exact hbe (Fin.ext (by rw [evBlock_val, evBlock_val, Fin.val_mk, hm]))
    simp [hne]

theorem mlua_event_set_mask (s : EventState) (ev : Nat) :
    (mlua_event_set s ev).1.mask = s.mask := by
  unfold mlua_event_set
  by_cases h : ev < NUM_EVENTS
  · rw [dif_pos h]
  · rw [dif_neg h]

theorem mlua_event_clear_pendingBit {s : EventState} {ev : Nat}
    (h : ev < NUM_EVENTS) (e' : Fin NUM_EVENTS) :
    pendingBit (mlua_event_clear s ev) e' =
      (pendingBit s e' && !(decide (e'.val = ev))) := by
  unfold mlua_event_clear pendingBit
  rw [dif_pos h]
  by_cases hbe : evBlock e' = evBlock ⟨ev, h⟩
  · rw [hbe]
    simp only [Function.update_same, Nat.testBit_land]
    rw [testBit_compl32 _ _ (Nat.mod_lt _ (by omega)), testBit_one_shl]
    have hb : e'.val / 32 = ev / 32 := by
      have := congrArg Fin.val hbe
      rw [evBlock_val, evBlock_val] at this
      simpa using this
    congr 2
    rw [decide_eq_decide]
    constructor
    · intro hm
      exact slot_eq_of_parts e'.isLt h hb hm.symm
    · intro hm; rw [hm]
  · simp only [Function.update_noteq hbe]
    have hne : e'.val ≠ ev := by
      intro hm
      exact hbe (Fin.ext (by rw [evBlock_val, evBlock_val, Fin.val_mk, hm]))
    simp [hne]

/-! ### Closed form of one dispatch pass -/

theorem flatMap_congr {α β : Type} {l : List α} {f g : α → List β}
    (h : ∀ a ∈ l, f a = g a) : l.flatMap f = l.flatMap g := by
  induction l with
  | nil => rfl
  | cons a l ih =>
    simp only [List.flatMap_cons]
    rw [h a (List.mem_cons_self a l), ih (fun a' ha' => h a' (List.mem_cons_of_mem a ha'))]

theorem foldl_or_eq_any {α : Type} (f : α → Bool) (l : List α) (w : Bool) :
    l.foldl (fun w' p => w' || f p) w = (w || l.any f) := by
  induction l generalizing w with
  | nil => simp
  | cons a l ih =>
    simp only [List.foldl_cons, List.any_cons, ih]
    rw [Bool.or_assoc]

theorem blockPairs_congr (reg : Reg) (core : Fin NUM_CORES) {s s' : EventState}
    (b : Fin EVENTS_SIZE) (hp : s'.pending b = s.pending b)
    (hm : s'.mask core b = s.mask core b) :
    blockPairs reg core s' b = blockPairs reg core s b := by
  unfold blockPairs
  rw [hp, hm]

theorem passSteps_spec (resume : Nat → Bool) (core : Fin NUM_CORES) (reg : Reg) :
    ∀ (L : List (Fin EVENTS_SIZE)), L.Nodup → ∀ (acc : PassResult),
      (L.foldl (passStep resume core reg) acc).state.mask = acc.state.mask ∧
      (∀ b, (L.foldl (passStep resume core reg) acc).state.pending b =
        if b ∈ L then acc.state.pending b &&& (acc.state.mask core b ^^^ WORD_MASK)
        else acc.state.pending b) ∧
      (L.foldl (passStep resume core reg) acc).resumed =
        acc.resumed ++ L.flatMap (blockPairs reg core acc.state) ∧
      (L.foldl (passStep resume core reg) acc).wake =
        (L.flatMap (blockPairs reg core acc.state)).foldl
          (fun w p => w || resume p.2) acc.wake := by
  intro L
  induction L with
  | nil => intro _ acc; simp
  | cons b L ih =>
    intro hnd acc
    obtain ⟨hb, hnd'⟩ := List.nodup_cons.mp hnd
    rw [List.foldl_cons]
    obtain ⟨ih1, ih2, ih3, ih4⟩ := ih hnd' (passStep resume core reg acc b)
    have hstep_mask : (passStep resume core reg acc b).state.mask = acc.state.mask := rfl
    have hstep_pending : ∀ b', (passStep resume core reg acc b).state.pending b' =
        if b' = b then acc.state.pending b &&& (acc.state.mask core b ^^^ WORD_MASK)
        else acc.state.pending b' := by
      intro b'
      show Function.update acc.state.pending b _ b' = _
      by_cases hb' : b' = b
      · subst hb'; rw [Function.update_same, if_pos rfl]
      · rw [Function.update_noteq hb', if_neg hb']
    have hpairs : ∀ b' ∈ L, blockPairs reg core (passStep resume core reg acc b).state b' =
        blockPairs reg core acc.state b' := by
      intro b' hb'
      have hne : b' ≠ b := fun he => hb (he ▸ hb')
      exact blockPairs_congr reg core b' (by rw [hstep_pending b', if_neg hne])
        (by rw [hstep_mask])
    refine ⟨by rw [ih1, hstep_mask], ?_, ?_, ?_⟩
    · intro b'
      rw [ih2 b']
      by_cases hmem : b' ∈ L
      · rw [if_pos hmem, if_pos (List.mem_cons_of_mem b hmem)]
        have hne : b' ≠ b := fun he => hb (he ▸ hmem)
        rw [hstep_pending b', if_neg hne, hstep_mask]
      · rw [if_neg hmem, hstep_pending b']
        by_cases hbe : b' = b
        · rw [if_pos hbe, if_pos (by rw [hbe]; exact List.mem_cons_self b L)]
          rw [hbe]
        · rw [if_neg hbe, if_neg (by simp [hbe, hmem])]
    · rw [ih3, flatMap_congr hpairs]
      show (acc.resumed ++ blockPairs reg core acc.state b) ++ _ = _
      rw [List.append_assoc, List.flatMap_cons]
    · rw [ih4, flatMap_congr hpairs, List.flatMap_cons, List.foldl_append]
      rfl

theorem dispatchPass_mask (resume : Nat → Bool) (core : Fin NUM_CORES)
    (reg : Reg) (s : EventState) :
    (dispatchPass resume core reg s).state.mask = s.mask :=
  (passSteps_spec resume core reg _ (List.nodup_finRange _) ⟨s, [], false⟩).1

theorem dispatchPass_pending (resume : Nat → Bool) (core : Fin NUM_CORES)
    (reg : Reg) (s : EventState) (b : Fin EVENTS_SIZE) :
    (dispatchPass resume core reg s).state.pending b =
      s.pending b &&& (s.mask core b ^^^ WORD_MASK) := by
  have h := (passSteps_spec resume core reg _ (List.nodup_finRange _) ⟨s, [], false⟩).2.1 b
  rw [if_pos (List.mem_finRange b)] at h
  exact h

theorem dispatchPass_resumed (resume : Nat → Bool) (core : Fin NUM_CORES)
    (reg : Reg) (s : EventState) :
    (dispatchPass resume core reg s).resumed =
      (List.finRange EVENTS_SIZE).flatMap (blockPairs reg core s) := by
  have h := (passSteps_spec resume core reg _ (List.nodup_finRange _) ⟨s, [], false⟩).2.2.1
  rw [List.nil_append] at h
  exact h

theorem dispatchPass_wake (resume : Nat → Bool) (core : Fin NUM_CORES)
    (reg : Reg) (s : EventState) :
    (dispatchPass resume core reg s).wake =
      (dispatchPass resume core reg s).resumed.any (fun p => resume p.2) := by
  have h := (passSteps_spec resume core reg _ (List.nodup_finRange _) ⟨s, [], false⟩).2.2.2
  rw [foldl_or_eq_any, Bool.false_or] at h
  rw [dispatchPass_resumed resume core reg s]
  exact h

theorem mem_blockSlots {a i : Nat} : i ∈ blockSlots a ↔ i < 32 ∧ a.testBit i = true := by
  unfold blockSlots
  rw [List.mem_filter, List.mem_range]

theorem mem_blockPairs {reg : Reg} {core : Fin NUM_CORES} {s : EventState}
    {b : Fin EVENTS_SIZE} {e t : Nat} :
    (e, t) ∈ blockPairs reg core s b ↔
      ∃ i, i < 32 ∧ e = b.val * 32 + i ∧
        (s.pending b &&& s.mask core b).testBit i = true ∧
        t ∈ watcherThreads (reg e) := by
  unfold blockPairs
  rw [List.mem_flatMap]
  constructor
  · rintro ⟨i, hi, hmem⟩
    rw [List.mem_map] at hmem
    obtain ⟨t', ht', heq⟩ := hmem
    cases heq
    obtain ⟨hi32, hbit⟩ := mem_blockSlots.mp hi
    exact ⟨i, hi32, rfl, hbit, ht'⟩
  · rintro ⟨i, hi32, rfl, hbit, ht⟩
    exact ⟨i, mem_blockSlots.mpr ⟨hi32, hbit⟩, List.mem_map.mpr ⟨t, ht, rfl⟩⟩

theorem pendingBit_dispatchPass (resume : Nat → Bool) (core : Fin NUM_CORES)
    (reg : Reg) (s : EventState) (e : Fin NUM_EVENTS) :
    pendingBit (dispatchPass resume core reg s).state e =
      (pendingBit s e && !(maskBit s core e)) := by
  unfold pendingBit maskBit
  rw [dispatchPass_pending, Nat.testBit_land,
    testBit_compl32 _ _ (Nat.mod_lt _ (by omega))]

theorem mem_dispatchPass_resumed (resume : Nat → Bool) (core : Fin NUM_CORES)
    (reg : Reg) (s : EventState) (e : Fin NUM_EVENTS) (t : Nat) :
    (e.val, t) ∈ (dispatchPass resume core reg s).resumed ↔
      (pendingBit s e && maskBit s core e) = true ∧
        t ∈ watcherThreads (reg e.val) := by
  rw [dispatchPass_resumed, List.mem_flatMap]
  constructor
  · rintro ⟨b, -, hmem⟩
    obtain ⟨i, hi32, heq, hbit, ht⟩ := mem_blockPairs.mp hmem
    have hb4 := b.isLt
    have hb : b = evBlock e := Fin.ext (by rw [evBlock_val]; omega)
    have hi : i = e.val % 32 := by omega
    rw [hb, hi] at hbit
    refine ⟨?_, ht⟩
    unfold pendingBit maskBit
    rw [← Nat.testBit_land]
    exact hbit
  · rintro ⟨hpm, ht⟩
    refine ⟨evBlock e, List.mem_finRange _, mem_blockPairs.mpr
      ⟨e.val % 32, Nat.mod_lt _ (by omega), by rw [evBlock_val]; omega, ?_, ht⟩⟩
    rw [Nat.testBit_land]
    unfold pendingBit maskBit at hpm
    exact hpm

/-! ### Behaviour of the dispatch loop -/

theorem mod_dispatch_some_cond (resume : Nat → Bool) (core : Fin NUM_CORES)
    (reg : Reg) (deadline : Nat) (env : Nat → IterEnv) :
    ∀ fuel i s r, mod_dispatch resume core reg deadline env i fuel s = some r →
      (r.wake = true ∨ is_nil_time deadline = true ∨
        time_reached deadline (env r.iters).now = true) := by
  intro fuel
  induction fuel with
  | zero => intro i s r h; exact absurd h (by rw [mod_dispatch]; simp)
  | succ fuel ih =>
    intro i s r h
    rw [mod_dispatch] at h
    split at h
    · have hr := Option.some_injective _ h
      subst hr
      next hc =>
        rcases Bool.or_eq_true_iff.mp hc with hc1 | hc2
        · rcases Bool.or_eq_true_iff.mp hc1 with hw | hn
          · exact Or.inl hw
          · exact Or.inr (Or.inl hn)
        · exact Or.inr (Or.inr hc2)
    · rcases hrec : mod_dispatch resume core reg deadline env (i + 1) fuel
          (dispatchPass resume core reg (injectEvents s (env i).inject)).state
          with _ | r'
      · rw [hrec] at h; exact absurd h (by simp)
      · rw [hrec] at h
        simp only [Option.map_some] at h
        have hr := Option.some_injective _ h
        subst hr
        exact ih (i + 1) _ r' hrec

theorem mod_dispatch_nil (resume : Nat → Bool) (core : Fin NUM_CORES)
    (reg : Reg) (env : Nat → IterEnv) (i fuel : Nat) (s : EventState) :
    mod_dispatch resume core reg nilTime env i (fuel + 1) s =
      some ⟨i, (dispatchPass resume core reg (injectEvents s (env i).inject)).state,
            [], (dispatchPass resume core reg (injectEvents s (env i).inject)).wake⟩ := by
  rw [mod_dispatch]
  rw [if_pos (by simp [is_nil_time, nilTime])]

theorem mod_dispatch_eot (resume : Nat → Bool) (core : Fin NUM_CORES)
    (reg : Reg) (env : Nat → IterEnv)
    (hnow : ∀ j, (env j).now < atTheEndOfTime) :
    ∀ fuel i s r,
      mod_dispatch resume core reg atTheEndOfTime env i fuel s = some r →
      r.wake = true ∧ i ≤ r.iters ∧
        r.acts = List.replicate (r.iters - i) WaitAction.wfe := by
  intro fuel
  induction fuel with
  | zero => intro i s r h; exact absurd h (by rw [mod_dispatch]; simp)
  | succ fuel ih =>
    intro i s r h
    have hnil : is_nil_time atTheEndOfTime = false := by decide
    have hreach : time_reached atTheEndOfTime (env i).now = false := by
      unfold time_reached
      simpa using Nat.not_le.mpr (hnow i)
    rw [mod_dispatch] at h
    split at h
    · have hr := Option.some_injective _ h
      subst hr
      next hc =>
        rw [hnil, hreach, Bool.or_false, Bool.or_false] at hc
        exact ⟨hc, Nat.le_refl i, by rw [Nat.sub_self]; rfl⟩
    · rcases hrec : mod_dispatch resume core reg atTheEndOfTime env (i + 1) fuel
          (dispatchPass resume core reg (injectEvents s (env i).inject)).state
          with _ | r'
      · rw [hrec] at h; exact absurd h (by simp)
      · rw [hrec] at h
        simp only [Option.map_some] at h
        have hr := Option.some_injective _ h
        subst hr
        dsimp only
        obtain ⟨hw, hle, hacts⟩ := ih (i + 1) _ r' hrec
        have hact : (if is_at_the_end_of_time atTheEndOfTime then WaitAction.wfe
            else WaitAction.wfeTimeout atTheEndOfTime) = WaitAction.wfe := by
          rw [if_pos (by decide)]
        refine ⟨hw, by omega, ?_⟩
        show (_ :: r'.acts) = _
        rw [hact, hacts, show r'.iters - i = (r'.iters - (i + 1)) + 1 by omega,
          List.replicate_succ]

/-! ### Behaviour of the wait protocol -/

theorem waitLoop_spec (tryF : Nat → Int) (ev t : Nat) (reg : Reg) :
    ∀ fuel k0 k, k0 ≤ k → (∀ j, k0 ≤ j → j < k → tryF j < 0) → 0 ≤ tryF k →
      k - k0 < fuel →
      waitLoop tryF ev t reg k0 fuel =
        some (tryF k, mlua_event_unwatch reg t ev, k) := by
  intro fuel
  induction fuel with
  | zero => intro k0 k _ _ _ hlt; omega
  | succ fuel ih =>
    intro k0 k hk hneg hsucc hlt
    rw [waitLoop]
    by_cases h0 : tryF k0 < 0
    · rw [if_pos h0]
      have hk0 : k0 < k := by
        rcases Nat.eq_or_lt_of_le hk with he | hl
        · subst he; omega
        · exact hl
      exact ih (k0 + 1) k (by omega)
        (fun j hj1 hj2 => hneg j (by omega) hj2) hsucc (by omega)
    · rw [if_neg h0]
      have hke : k = k0 := by
        by_contra hne
        have : k0 < k := by omega
        exact h0 (hneg k0 (Nat.le_refl k0) this)
      subst hke
      rfl

/-! ### Bit-level behaviour of claim and unclaim -/

theorem testBit_clear_word {w j i : Nat} (hi : i < 32) :
    (w &&& ((1 <<< j) ^^^ WORD_MASK)).testBit i =
      (w.testBit i && !(decide (j = i))) := by
  rw [Nat.testBit_land, testBit_compl32 _ _ hi, testBit_one_shl]

theorem mlua_event_claim_pending (s : EventState) (core : Fin NUM_CORES)
    (ev : Nat) : (mlua_event_claim s core ev).2.1.pending = s.pending := by
  unfold mlua_event_claim
  by_cases h : ev < NUM_EVENTS
  · rw [if_pos h]
  · rw [if_neg h]
    rcases hs : claimScan s 0 with _ | ⟨b, idx⟩ <;> rfl

theorem mlua_event_claim_error_none {s : EventState} {core : Fin NUM_CORES}
    {ev : Nat} (hev : ¬ ev < NUM_EVENTS) (hs : claimScan s 0 = none) :
    mlua_event_claim s core ev = (some "no events available", s, ev) := by
  unfold mlua_event_claim
  rw [if_neg hev, hs]

theorem mlua_event_claim_some_parts {s : EventState} {core : Fin NUM_CORES}
    {ev : Nat} (hev : ¬ ev < NUM_EVENTS) {b : Fin EVENTS_SIZE} {idx : Nat}
    (hs : claimScan s 0 = some (b, idx)) :
    (mlua_event_claim s core ev).1 = none ∧
      (mlua_event_claim s core ev).2.2 = b.val * 32 + idx := by
  unfold mlua_event_claim
  rw [if_neg hev, hs]
  exact ⟨rfl, rfl⟩

theorem mlua_event_claim_maskBit {s : EventState} {core : Fin NUM_CORES}
    {ev : Nat} (hev : ¬ ev < NUM_EVENTS) {b : Fin EVENTS_SIZE} {idx : Nat}
    (hs : claimScan s 0 = some (b, idx)) (hidx : idx < 32)
    (c : Fin NUM_CORES) (e' : Fin NUM_EVENTS) :
    maskBit (mlua_event_claim s core ev).2.1 c e' =
      (maskBit s c e' ||
        (decide (c = core) && decide (e'.val = b.val * 32 + idx))) := by
  unfold mlua_event_claim
  rw [if_neg hev, hs]
  unfold maskBit
  dsimp only
  by_cases hc : c = core
  · subst hc
    rw [Function.update_same]
    by_cases hbe : evBlock e' = b
    · rw [hbe, Function.update_same, Nat.testBit_lor, testBit_one_shl]
      have hb : e'.val / 32 = b.val := by
        have hv := congrArg Fin.val hbe
        rw [evBlock_val] at hv
        exact hv
      have hd1 : decide (idx = e'.val % 32) = decide (e'.val = b.val * 32 + idx) := by
        rw [decide_eq_decide]
        omega
      have hd2 : decide (c = c) = true := by simp
      rw [hd1, hd2, Bool.true_and]
    · rw [Function.update_noteq hbe]
      have hne : e'.val ≠ b.val * 32 + idx := by
        intro hm
        exact hbe (Fin.ext (by rw [evBlock_val, hm]; omega))
      simp [hne]
  · rw [Function.update_noteq hc]
    simp [hc]

theorem mlua_event_unclaim_oob {s : EventState} {reg : Reg}
    {core : Fin NUM_CORES} {ev : Nat} (h : ¬ ev < NUM_EVENTS) :
    mlua_event_unclaim s reg core ev = (s, reg, ev) := by
  unfold mlua_event_unclaim
  rw [dif_neg h]

theorem mlua_event_unclaim_not_owned {s : EventState} {reg : Reg}
    {core : Fin NUM_CORES} {ev : Nat} (h : ev < NUM_EVENTS)
    (hword : s.mask core (evBlock ⟨ev, h⟩) < 2 ^ 32)
    (hnot : maskBit s core ⟨ev, h⟩ = false) :
    mlua_event_unclaim s reg core ev = (s, reg, ev) := by
  have heq : s.mask core (evBlock ⟨ev, h⟩) &&& ((1 <<< (ev % 32)) ^^^ WORD_MASK) =
      s.mask core (evBlock ⟨ev, h⟩) := by
    apply Nat.eq_of_testBit_eq
    intro i
    by_cases hi : i < 32
    · rw [testBit_clear_word hi]
      by_cases hij : ev % 32 = i
      · subst hij
        unfold maskBit at hnot
        simp only [Fin.val_mk] at hnot
        rw [hnot]
        simp
      · simp [hij]
    · rw [Nat.testBit_land]
      have hw : (s.mask core (evBlock ⟨ev, h⟩)).testBit i = false :=
        Nat.testBit_eq_false_of_lt
          (lt_of_lt_of_le hword (Nat.pow_le_pow_right (by omega) (by omega)))
      rw [hw]
      simp
  unfold mlua_event_unclaim
  simp only [dif_pos h, if_pos heq]

/-- The state produced by a successful `mlua_event_unclaim`: the bit of
`ev` cleared from the calling core's mask word; everything else kept. -/
def clearMaskBit (s : EventState) (core : Fin NUM_CORES) (ev : Nat)
    (h : ev < NUM_EVENTS) : EventState :=
  let b := evBlock ⟨ev, h⟩
  let w := s.mask core b &&& ((1 <<< (ev % 32)) ^^^ WORD_MASK)
  { s with mask := Function.update s.mask core (Function.update (s.mask core) b w) }

theorem mlua_event_unclaim_eq_owned {s : EventState} {reg : Reg}
    {core : Fin NUM_CORES} {ev : Nat} (h : ev < NUM_EVENTS)
    (howned : maskBit s core ⟨ev, h⟩ = true) :
    mlua_event_unclaim s reg core ev =
      (clearMaskBit s core ev h,
       Function.update reg ev Watchers.nowatcher, MLUA_EVENT_UNSET) := by
  have hne : s.mask core (evBlock ⟨ev, h⟩) &&& ((1 <<< (ev % 32)) ^^^ WORD_MASK) ≠
      s.mask core (evBlock ⟨ev, h⟩) := by
    intro heq
    have hbit : (s.mask core (evBlock ⟨ev, h⟩) &&&
        ((1 <<< (ev % 32)) ^^^ WORD_MASK)).testBit (ev % 32) =
        (s.mask core (evBlock ⟨ev, h⟩)).testBit (ev % 32) := by rw [heq]
    rw [testBit_clear_word (Nat.mod_lt _ (by omega))] at hbit
    simp only [decide_eq_true_eq] at hbit
    unfold maskBit at howned
    simp only [Fin.val_mk] at howned
    rw [howned] at hbit
    simp at hbit
  unfold mlua_event_unclaim clearMaskBit
  simp only [dif_pos h, if_neg hne]

theorem mlua_event_unclaim_maskBit {s : EventState} {reg : Reg}
    {core : Fin NUM_CORES} {ev : Nat} (h : ev < NUM_EVENTS)
    (howned : maskBit s core ⟨ev, h⟩ = true) (c : Fin NUM_CORES)
    (e' : Fin NUM_EVENTS) :
    maskBit (mlua_event_unclaim s reg core ev).1 c e' =
      (maskBit s c e' && !(decide (c = core) && decide (e'.val = ev))) := by
  rw [mlua_event_unclaim_eq_owned h howned]
  unfold clearMaskBit maskBit
  dsimp only
  by_cases hc : c = core
  · subst hc
    rw [Function.update_same]
    by_cases hbe : evBlock e' = evBlock ⟨ev, h⟩
    · rw [hbe, Function.update_same,
        testBit_clear_word (Nat.mod_lt _ (by omega))]
      have hb : e'.val / 32 = ev / 32 := by
        have hv := congrArg Fin.val hbe
        rw [evBlock_val, evBlock_val, Fin.val_mk] at hv
        exact hv
      have hd1 : decide (ev % 32 = e'.val % 32) = decide (e'.val = ev) := by
        rw [decide_eq_decide]
        constructor
        · intro hm
          exact slot_eq_of_parts e'.isLt h hb hm.symm
        · intro hm; rw [hm]
      have hd2 : decide (c = c) = true := by simp
      rw [hd1, hd2, Bool.true_and]
    · rw [Function.update_noteq hbe]
      have hne : e'.val ≠ ev := by
        intro hm
        exact hbe (Fin.ext (by rw [evBlock_val, evBlock_val, Fin.val_mk, hm]))
      simp [hne]
  · rw [Function.update_noteq hc]
    simp [hc]

theorem mlua_event_unclaim_pending (s : EventState) (reg : Reg)
    (core : Fin NUM_CORES) (ev : Nat) :
    (mlua_event_unclaim s reg core ev).1.pending = s.pending := by
  unfold mlua_event_unclaim
  by_cases h : ev < NUM_EVENTS
  · rw [dif_pos h]
    dsimp only
    split
    · rfl
    · rfl
  · rw [dif_neg h]

/-! ### Watcher-registry helpers -/

/-- Whether a thread is registered in one registry entry. -/
def watcherMem (t : Nat) : Watchers → Bool
  | .nowatcher => false
  | .single u => decide (t = u)
  | .multi s => decide (t ∈ s)

theorem watchEntry_already {t : Nat} {w : Watchers}
    (h : watcherMem t w = true) : watchEntry t w = w := by
  cases w with
  | nowatcher => exact absurd h (by simp [watcherMem])
  | single u =>
    have ht : t = u := by simpa [watcherMem] using h
    simp only [watchEntry]
    rw [if_pos ht.symm]
  | multi s' =>
    have ht : t ∈ s' := by simpa [watcherMem] using h
    simp only [watchEntry]
    rw [Finset.insert_eq_self.mpr ht]

theorem watchEntry_idem (t : Nat) (w : Watchers) :
    watchEntry t (watchEntry t w) = watchEntry t w := by
  cases w with
  | nowatcher =>
    simp [watchEntry]
  | single u =>
    by_cases hu : u = t
    · simp only [watchEntry]
      rw [if_pos hu]
      simp only [watchEntry]
      rw [if_pos hu]
    · simp only [watchEntry]
      rw [if_neg hu]
      simp only [watchEntry]
      rw [Finset.insert_eq_self.mpr (Finset.mem_insert.mpr
        (Or.inr (Finset.mem_singleton_self t)))]
  | multi s' =>
    simp only [watchEntry]
    rw [Finset.insert_idem]

theorem watchEntry_count_one (t : Nat) (w : Watchers) :
    (watcherThreads (watchEntry t w)).count t = 1 := by
  cases w with
  | nowatcher => simp [watchEntry, watcherThreads, List.count_cons]
  | single u =>
    by_cases hu : u = t
    · subst hu
      simp [watchEntry, watcherThreads, List.count_cons]
    · simp only [watchEntry]
      rw [if_neg hu]
      exact List.count_eq_one_of_mem (Finset.sort_nodup _ _)
        (Finset.mem_sort _ |>.mpr (Finset.mem_insert.mpr
          (Or.inr (Finset.mem_singleton_self t))))
  | multi s' =>
    exact List.count_eq_one_of_mem (Finset.sort_nodup _ _)
      (Finset.mem_sort _ |>.mpr (Finset.mem_insert_self t s'))

theorem watcherThreads_nodup (w : Watchers) : (watcherThreads w).Nodup := by
  cases w with
  | nowatcher => exact List.nodup_nil
  | single u => exact List.nodup_singleton u
  | multi s' => exact Finset.sort_nodup _ s'

/-! ### Concrete example states -/

/-- Registry with no watchers at all. -/
def regEmpty : Reg := fun _ => Watchers.nowatcher

/-- Registry with thread 7 watching slot 0. -/
def regSingle7 : Reg := fun e => if e = 0 then Watchers.single 7 else Watchers.nowatcher

/-- State after core 0 claims the first slot from the zero state
(the claim returns slot id 0). -/
def exClaimed : EventState :=
  (mlua_event_claim EventState.zero 0 MLUA_EVENT_UNSET).2.1

/-- State after additionally marking slot 0 pending. -/
def exPending : EventState := (mlua_event_set exClaimed 0).1

/-! ### The claims -/

/-- C7: calling `wait` on an event slot that is not claimed (handle out
of the valid id range) raises the error immediately; the result does
not depend on the try function, no registry update happens and the
retry loop is never entered. -/
theorem wait_unclaimed_event_errors (yieldable : Bool) (tryF : Nat → Int)
    (ev t : Nat) (reg : Reg) (fuel : Nat) (h : NUM_EVENTS ≤ ev) :
    mlua_event_wait yieldable tryF ev t reg fuel =
      .error "wait for unclaimed event" := by
  unfold mlua_event_wait
  rw [if_pos h]

/-- Witness for C7: waiting on handle 200 fails with the error. -/
theorem wait_unclaimed_event_errors_witness :
    mlua_event_wait true (fun _ => 0) 200 7 regEmpty 5 =
      .error "wait for unclaimed event" :=
  wait_unclaimed_event_errors true (fun _ => 0) 200 7 regEmpty 5 (by decide)

/-- C8: `watch` follows the three storage tiers (no watcher stores the
single handle; one different watcher promotes to a set of both; a set
gets an insert), is idempotent, leaves a registered thread's entry
unchanged, and a thread appears exactly once in the resulting entry;
`mlua_event_watch` applies this entry transformation at the slot. -/
theorem watch_three_tiers (t u : Nat) (w : Watchers) (s' : Finset Nat)
    (reg : Reg) (ev : Nat) :
    (watchEntry t Watchers.nowatcher = Watchers.single t) ∧
    (u ≠ t → watchEntry t (Watchers.single u) = Watchers.multi {u, t}) ∧
    (watchEntry t (Watchers.multi s') = Watchers.multi (insert t s')) ∧
    (watcherMem t w = true → watchEntry t w = w) ∧
    (watchEntry t (watchEntry t w) = watchEntry t w) ∧
    ((watcherThreads (watchEntry t w)).count t = 1) ∧
    ((watcherThreads w).Nodup) ∧
    (ev < NUM_EVENTS → mlua_event_watch true reg t ev =
      .ok (Function.update reg ev (watchEntry t (reg ev)))) := by
  refine ⟨rfl, ?_, rfl, watchEntry_already, watchEntry_idem t w,
    watchEntry_count_one t w, watcherThreads_nodup w, ?_⟩
  · intro h
    simp only [watchEntry]
    rw [if_neg h]
  · intro h
    unfold mlua_event_watch
    rw [if_neg (by omega)]
    simp

/-- Counterexample for C9: removing the last thread of a multi-watcher
set leaves an empty set entry in the registry, not the "no watcher"
(no entry) state the claim describes. -/
theorem unwatch_empty_set_counterexample :
    unwatchEntry 7 (Watchers.multi {7}) = Watchers.multi ∅ ∧
    Watchers.multi ∅ ≠ Watchers.nowatcher ∧
    (mlua_event_unwatch (Function.update regEmpty 0 (Watchers.multi {7})) 7 0) 0 =
      Watchers.multi ∅ := by
  decide

/-- C9 (amended): removing a thread from a multi-watcher set erases it
from the set but the entry remains a (possibly empty) set — it is not
demoted to the no-entry state; an emptied set behaves as "no watchers"
(dispatch resumes nobody from it and the thread is no longer
registered); removing a thread that is not registered leaves the
registry unchanged. -/
theorem unwatch_set_behaviour (t u : Nat) (s' : Finset Nat) (reg : Reg)
    (ev : Nat) :
    (unwatchEntry t (Watchers.multi s') = Watchers.multi (s'.erase t)) ∧
    (watcherThreads (Watchers.multi ∅) = []) ∧
    (watcherMem t (unwatchEntry t (Watchers.multi s')) = false) ∧
    (t ∉ s' → unwatchEntry t (Watchers.multi s') = Watchers.multi s') ∧
    (u ≠ t → unwatchEntry t (Watchers.single u) = Watchers.single u) ∧
    (unwatchEntry t Watchers.nowatcher = Watchers.nowatcher) ∧
    (ev < NUM_EVENTS → reg ev = Watchers.multi s' → t ∉ s' →
      mlua_event_unwatch reg t ev = reg) ∧
    (ev < NUM_EVENTS → mlua_event_unwatch reg t ev =
      Function.update reg ev (unwatchEntry t (reg ev))) := by
  refine ⟨rfl, ?_, ?_, ?_, ?_, rfl, ?_, ?_⟩
  · show Finset.sort _ ∅ = []
    exact Finset.sort_empty _
  · show decide (t ∈ s'.erase t) = false
    simp
  · intro h
    show Watchers.multi (s'.erase t) = Watchers.multi s'
    rw [Finset.erase_eq_of_not_mem h]
  · intro h
    simp only [unwatchEntry]
    rw [if_neg h]
  · intro h hreg hmem
    unfold mlua_event_unwatch
    rw [if_neg (by omega), hreg]
    show Function.update reg ev (Watchers.multi (s'.erase t)) = reg
    rw [Finset.erase_eq_of_not_mem hmem, ← hreg, Function.update_eq_self]
  · intro h
    unfold mlua_event_unwatch
    rw [if_neg (by omega)]

/-- C10: `mlua_event_set` with an out-of-range handle is a total no-op
that does not signal; with a valid id it reports the `__sev` signal,
leaves the masks untouched, sets exactly the one pending bit, and the
word index stays inside the pending array. -/
theorem set_pending_safety (s : EventState) (ev : Nat) :
    (NUM_EVENTS ≤ ev → mlua_event_set s ev = (s, false)) ∧
    (ev < NUM_EVENTS →
      (mlua_event_set s ev).2 = true ∧
      (mlua_event_set s ev).1.mask = s.mask ∧
      (∀ e' : Fin NUM_EVENTS,
        pendingBit (mlua_event_set s ev).1 e' =
          (pendingBit s e' || decide (e'.val = ev))) ∧
      ev / 32 < EVENTS_SIZE) := by
  constructor
  · intro h
    unfold mlua_event_set
    rw [dif_neg (by omega)]
  · intro h
    refine ⟨?_, mlua_event_set_mask s ev,
      fun e' => mlua_event_set_pendingBit h e', ?_⟩
    · unfold mlua_event_set
      rw [dif_pos h]
    · simp only [EVENTS_SIZE, NUM_EVENTS]
      simp only [NUM_EVENTS] at h
      omega

/-- Counterexample for C4: after core 0 claims slot 0 and marks it
pending, unclaiming the slot clears the mask bit but leaves the
pending bit set — the claim's "clears the slot's pending bit in the
global pending bitmap" fails on the code. -/
theorem unclaim_keeps_pending_counterexample :
    pendingBit exPending (0 : Fin NUM_EVENTS) = true ∧
    maskBit exPending 0 (0 : Fin NUM_EVENTS) = true ∧
    maskBit (mlua_event_unclaim exPending regEmpty 0 0).1 0 (0 : Fin NUM_EVENTS) = false ∧
    pendingBit (mlua_event_unclaim exPending regEmpty 0 0).1 (0 : Fin NUM_EVENTS) = true := by
  decide

/-- C4 (amended): unclaim on a slot claimed by the calling core clears
exactly that bit of that core's mask, removes the slot's watcher
registry entry and resets the handle, but leaves the global pending
bitmap unchanged; unclaim on a slot not claimed by the calling core
(or with an out-of-range handle) changes nothing. -/
theorem unclaim_behaviour (s : EventState) (reg : Reg) (core : Fin NUM_CORES)
    (ev : Nat) :
    (∀ h : ev < NUM_EVENTS, maskBit s core ⟨ev, h⟩ = true →
      (∀ c e', maskBit (mlua_event_unclaim s reg core ev).1 c e' =
         (maskBit s c e' && !(decide (c = core) && decide (e'.val = ev)))) ∧
      (mlua_event_unclaim s reg core ev).1.pending = s.pending ∧
      (mlua_event_unclaim s reg core ev).2.1 =
        Function.update reg ev Watchers.nowatcher ∧
      (mlua_event_unclaim s reg core ev).2.2 = MLUA_EVENT_UNSET) ∧
    (∀ h : ev < NUM_EVENTS, maskBit s core ⟨ev, h⟩ = false →
      s.mask core (evBlock ⟨ev, h⟩) < 2 ^ 32 →
      mlua_event_unclaim s reg core ev = (s, reg, ev)) ∧
    (NUM_EVENTS ≤ ev → mlua_event_unclaim s reg core ev = (s, reg, ev)) := by
  refine ⟨fun h howned => ?_, fun h hnot hword =>
    mlua_event_unclaim_not_owned h hword hnot, fun h =>
    mlua_event_unclaim_oob (by omega)⟩
  refine ⟨fun c e' => mlua_event_unclaim_maskBit h howned c e', ?_, ?_, ?_⟩
  · exact mlua_event_unclaim_pending s reg core ev
  · rw [mlua_event_unclaim_eq_owned h howned]
  · rw [mlua_event_unclaim_eq_owned h howned]

/-- Counterexample for C5: the sequence claim(core 0) → set_pending →
unclaim, using only the slot's own handle, reaches a state whose slot 0
is pending yet claimed by no core — "pending implies claimed" is not an
invariant of the code. -/
theorem pending_implies_claimed_counterexample :
    pendingBit (mlua_event_unclaim exPending regEmpty 0 0).1 (0 : Fin NUM_EVENTS) = true ∧
    maskBit (mlua_event_unclaim exPending regEmpty 0 0).1 0 (0 : Fin NUM_EVENTS) = false ∧
    maskBit (mlua_event_unclaim exPending regEmpty 0 0).1 1 (0 : Fin NUM_EVENTS) = false := by
  decide

/-- C5 (amended): "pending implies claimed" is preserved by claim (it
never touches pending and only grows the masks), by clear_pending and
by a dispatch pass (they only shrink pending and keep the masks), and
by set_pending applied to a slot some core claims; but unclaim leaves
every pending bit unchanged while clearing the claim, so unclaiming a
pending slot leaves a dangling pending bit and breaks the invariant. -/
theorem pending_implies_claimed_preservation (s : EventState) (reg : Reg)
    (core : Fin NUM_CORES) (ev : Nat) (resume : Nat → Bool) :
    ((mlua_event_claim s core ev).2.1.pending = s.pending ∧
     (∀ c e', maskBit s c e' = true →
       maskBit (mlua_event_claim s core ev).2.1 c e' = true)) ∧
    (∀ e', pendingBit (mlua_event_clear s ev) e' = true →
      pendingBit s e' = true) ∧
    ((dispatchPass resume core reg s).state.mask = s.mask ∧
     (∀ e', pendingBit (dispatchPass resume core reg s).state e' = true →
       pendingBit s e' = true)) ∧
    ((∀ e' : Fin NUM_EVENTS, pendingBit s e' = true → ∃ c, maskBit s c e' = true) →
     (∀ h : ev < NUM_EVENTS, ∃ c, maskBit s c ⟨ev, h⟩ = true) →
     ∀ e' : Fin NUM_EVENTS, pendingBit (mlua_event_set s ev).1 e' = true →
       ∃ c, maskBit (mlua_event_set s ev).1 c e' = true) ∧
    (∀ e', pendingBit (mlua_event_unclaim s reg core ev).1 e' = pendingBit s e') := by
  refine ⟨⟨mlua_event_claim_pending s core ev, ?_⟩, ?_, ⟨dispatchPass_mask resume core reg s, ?_⟩, ?_, ?_⟩
  · intro c e' hset
    by_cases hev : ev < NUM_EVENTS
    · unfold mlua_event_claim
      rw [if_pos hev]
      exact hset
    · rcases hs : claimScan s 0 with _ | ⟨b, idx⟩
      · rw [mlua_event_claim_error_none hev hs]
        exact hset
      · obtain ⟨hidx, -, -, -⟩ := claimScan_zero_some hs
        rw [mlua_event_claim_maskBit hev hs hidx c e', hset, Bool.true_or]
  · intro e' hp
    by_cases hev : ev < NUM_EVENTS
    · rw [mlua_event_clear_pendingBit hev e'] at hp
      exact (Bool.and_eq_true_iff.mp hp).1
    · unfold mlua_event_clear at hp
      rw [dif_neg hev] at hp
      exact hp
  · intro e' hp
    rw [pendingBit_dispatchPass resume core reg s e'] at hp
    exact (Bool.and_eq_true_iff.mp hp).1
  · intro hinv hcl e' hp
    by_cases hev : ev < NUM_EVENTS
    · rw [mlua_event_set_pendingBit hev e'] at hp
      have hmask : ∀ c, maskBit (mlua_event_set s ev).1 c e' = maskBit s c e' := by
        intro c
        unfold maskBit
        rw [mlua_event_set_mask]
      rcases Bool.or_eq_true_iff.mp hp with hold | hnew
      · obtain ⟨c, hc⟩ := hinv e' hold
        exact ⟨c, by rw [hmask c]; exact hc⟩
      · obtain ⟨c, hc⟩ := hcl hev
        have he' : (⟨ev, hev⟩ : Fin NUM_EVENTS) = e' :=
          Fin.ext (by rw [Fin.val_mk]; exact (of_decide_eq_true hnew).symm)
        exact ⟨c, by rw [hmask c, ← he']; exact hc⟩
    · unfold mlua_event_set at hp ⊢
      rw [dif_neg hev] at hp ⊢
      exact hinv e' hp
  · intro e'
    unfold pendingBit
    rw [mlua_event_unclaim_pending]

/-- C6: with the unset handle, claim succeeds exactly when some slot id
is free in the union of all cores' claimed-masks; it then returns the
lowest free id and sets only that bit, in the calling core's mask,
leaving pending untouched; when no slot is free it fails with the
"no events available" error and changes nothing; and in an exhausted
state, releasing one slot (uniquely owned by some core) makes the next
claim succeed, returning exactly that id. -/
theorem claim_lowest_free_slot (s : EventState) (core : Fin NUM_CORES) :
    ((∃ e : Fin NUM_EVENTS, slotFree s e) →
      (mlua_event_claim s core MLUA_EVENT_UNSET).1 = none ∧
      ∃ he : (mlua_event_claim s core MLUA_EVENT_UNSET).2.2 < NUM_EVENTS,
        slotFree s ⟨(mlua_event_claim s core MLUA_EVENT_UNSET).2.2, he⟩ ∧
        (∀ e : Fin NUM_EVENTS,
          e.val < (mlua_event_claim s core MLUA_EVENT_UNSET).2.2 →
            ¬ slotFree s e) ∧
        (∀ c e', maskBit (mlua_event_claim s core MLUA_EVENT_UNSET).2.1 c e' =
          (maskBit s c e' || (decide (c = core) &&
            decide (e'.val = (mlua_event_claim s core MLUA_EVENT_UNSET).2.2)))) ∧
        (mlua_event_claim s core MLUA_EVENT_UNSET).2.1.pending = s.pending) ∧
    ((∀ e : Fin NUM_EVENTS, ¬ slotFree s e) →
      mlua_event_claim s core MLUA_EVENT_UNSET =
        (some "no events available", s, MLUA_EVENT_UNSET)) ∧
    (∀ (reg : Reg) (c : Fin NUM_CORES) (e : Fin NUM_EVENTS),
      (∀ e' : Fin NUM_EVENTS, ¬ slotFree s e') →
      maskBit s c e = true →
      (∀ c', c' ≠ c → maskBit s c' e = false) →
      (mlua_event_claim (mlua_event_unclaim s reg c e.val).1 core
        MLUA_EVENT_UNSET).1 = none ∧
      (mlua_event_claim (mlua_event_unclaim s reg c e.val).1 core
        MLUA_EVENT_UNSET).2.2 = e.val) := by
  have hev : ¬ MLUA_EVENT_UNSET < NUM_EVENTS := by decide
  refine ⟨?_, ?_, ?_⟩
  · rintro ⟨e, hfree⟩
    rcases hs : claimScan s 0 with _ | ⟨b, idx⟩
    · exfalso
      have hso := claimScan_isSome_of_free hfree
      rw [hs] at hso
      exact absurd hso (by simp)
    · obtain ⟨herr, hhandle⟩ := mlua_event_claim_some_parts hev hs
      obtain ⟨hidx, -, -, -⟩ := claimScan_zero_some hs
      obtain ⟨h128, hfree2, hmin⟩ := claimScan_lowest_free hs
      refine ⟨herr, ?_⟩
      rw [hhandle]
      exact ⟨h128, hfree2, hmin,
        fun c e' => mlua_event_claim_maskBit hev hs hidx c e',
        mlua_event_claim_pending s core _⟩
  · intro hnone
    rcases hs : claimScan s 0 with _ | ⟨b, idx⟩
    · exact mlua_event_claim_error_none hev hs
    · exfalso
      obtain ⟨h128, hfree2, -⟩ := claimScan_lowest_free hs
      exact hnone _ hfree2
  · intro reg c e hex howned huniq
    have hmask := fun (c'' : Fin NUM_CORES) (e'' : Fin NUM_EVENTS) =>
      @mlua_event_unclaim_maskBit s reg c e.val e.isLt howned c'' e''
    have hfree' : slotFree (mlua_event_unclaim s reg c e.val).1 e := by
      intro c''
      rw [hmask c'' e]
      by_cases hc : c'' = c
      · subst hc
        simp
      · rw [huniq c'' hc]
        simp
    have hnotfree' : ∀ e'' : Fin NUM_EVENTS, e''.val ≠ e.val →
        ¬ slotFree (mlua_event_unclaim s reg c e.val).1 e'' := by
      intro e'' hne hf
      apply hex e''
      intro c''
      have hval := hf c''
      rw [hmask c'' e''] at hval
      simpa [hne] using hval
    rcases hs' : claimScan (mlua_event_unclaim s reg c e.val).1 0 with _ | ⟨b, idx⟩
    · exfalso
      have hso := claimScan_isSome_of_free hfree'
      rw [hs'] at hso
      exact absurd hso (by simp)
    · obtain ⟨herr, hhandle⟩ := mlua_event_claim_some_parts hev hs'
      obtain ⟨h128, hfree2, -⟩ := claimScan_lowest_free hs'
      have hid : b.val * 32 + idx = e.val := by
        by_contra hne
        exact hnotfree' ⟨b.val * 32 + idx, h128⟩ (by simpa using hne) hfree2
      exact ⟨herr, by rw [hhandle, hid]⟩

/-- C2: one dispatch pass on a core clears from the global pending
bitmap exactly the bits both pending and in that core's claimed-mask,
keeps the masks, resumes exactly the watchers of those bits, leaves a
pending bit claimed by the other core set and resumes nobody for it,
and its wake flag is the disjunction of the resumed threads' progress
reports. -/
theorem dispatch_pass_isolation (s : EventState) (reg : Reg)
    (resume : Nat → Bool) (core : Fin NUM_CORES) :
    (∀ e : Fin NUM_EVENTS, pendingBit (dispatchPass resume core reg s).state e =
      (pendingBit s e && !(maskBit s core e))) ∧
    ((dispatchPass resume core reg s).state.mask = s.mask) ∧
    (∀ (e : Fin NUM_EVENTS) (t : Nat),
      (e.val, t) ∈ (dispatchPass resume core reg s).resumed ↔
        (pendingBit s e && maskBit s core e) = true ∧
          t ∈ watcherThreads (reg e.val)) ∧
    (∀ (e : Fin NUM_EVENTS) (c' : Fin NUM_CORES), c' ≠ core →
      maskBit s c' e = true → maskBit s core e = false →
      pendingBit (dispatchPass resume core reg s).state e = pendingBit s e ∧
        ∀ t, (e.val, t) ∉ (dispatchPass resume core reg s).resumed) ∧
    ((dispatchPass resume core reg s).wake =
      (dispatchPass resume core reg s).resumed.any (fun p => resume p.2)) := by
  refine ⟨fun e => pendingBit_dispatchPass resume core reg s e,
    dispatchPass_mask resume core reg s,
    fun e t => mem_dispatchPass_resumed resume core reg s e t,
    ?_, dispatchPass_wake resume core reg s⟩
  intro e c' hc' hset hnotmine
  constructor
  · rw [pendingBit_dispatchPass resume core reg s e, hnotmine]
    simp
  · intro t hmem
    rw [mem_dispatchPass_resumed] at hmem
    obtain ⟨hpm, -⟩ := hmem
    rw [hnotmine, Bool.and_false] at hpm
    exact absurd hpm (by simp)

/-- C3: on a claimed slot, `wait` returns the first try result
immediately when it is non-negative, leaving the registry untouched
and never suspending (suspend count 0); when the first try result is
negative it registers the calling thread as a watcher, suspends, and
re-invokes the try function once per resume until invocation `k`
returns a non-negative result, which it returns after unwatching the
thread (suspend count `k`); when the thread was the only watcher the
registry ends up exactly as it started. -/
theorem wait_try_protocol (tryF : Nat → Int) (ev t : Nat) (reg : Reg)
    (fuel : Nat) :
    (ev < NUM_EVENTS → 0 ≤ tryF 0 →
      mlua_event_wait true tryF ev t reg fuel = .ok (some (tryF 0, reg, 0))) ∧
    (ev < NUM_EVENTS → tryF 0 < 0 → ∀ k, 1 ≤ k →
      (∀ j, 1 ≤ j → j < k → tryF j < 0) → 0 ≤ tryF k → k ≤ fuel →
      mlua_event_wait true tryF ev t reg fuel =
        .ok (some (tryF k,
          mlua_event_unwatch (Function.update reg ev (watchEntry t (reg ev))) t ev,
          k))) ∧
    (ev < NUM_EVENTS → reg ev = Watchers.nowatcher →
      mlua_event_unwatch (Function.update reg ev (watchEntry t (reg ev))) t ev =
        reg) := by
  refine ⟨?_, ?_, ?_⟩
  · intro hev hres
    unfold mlua_event_wait
    rw [if_neg (by omega), if_pos hres]
  · intro hev hres k hk1 hneg hsucc hkfuel
    unfold mlua_event_wait
    rw [if_neg (by omega), if_neg (by omega)]
    have hw : mlua_event_watch true reg t ev =
        .ok (Function.update reg ev (watchEntry t (reg ev))) := by
      unfold mlua_event_watch
      rw [if_neg (by omega)]
      simp
    rw [hw]
    dsimp only
    rw [waitLoop_spec tryF ev t _ fuel 1 k hk1 hneg hsucc (by omega)]
  · intro hev hreg
    rw [hreg]
    simp only [watchEntry]
    unfold mlua_event_unwatch
    rw [if_neg (by omega), Function.update_same]
    simp only [unwatchEntry]
    rw [if_pos trivial, Function.update_idem, ← hreg, Function.update_eq_self]

/-- C1: the dispatch loop returns only when the final pass woke a
watcher or the deadline is the nil sentinel or has been reached; with
the nil_time deadline it returns after exactly one drain pass, whatever
the wake flag; with the at_the_end_of_time deadline (and a clock that
never reaches it) it returns only with a watcher having reported
progress, after one indefinite low-power wait (`__wfe`) between each
pair of passes. -/
theorem dispatch_deadline_contract (resume : Nat → Bool) (core : Fin NUM_CORES)
    (reg : Reg) (env : Nat → IterEnv) :
    (∀ deadline fuel i s r,
      mod_dispatch resume core reg deadline env i fuel s = some r →
        r.wake = true ∨ is_nil_time deadline = true ∨
          time_reached deadline (env r.iters).now = true) ∧
    (∀ fuel i s,
      mod_dispatch resume core reg nilTime env i (fuel + 1) s =
        some ⟨i, (dispatchPass resume core reg (injectEvents s (env i).inject)).state,
              [], (dispatchPass resume core reg (injectEvents s (env i).inject)).wake⟩) ∧
    ((∀ j, (env j).now < atTheEndOfTime) →
      ∀ fuel i s r,
        mod_dispatch resume core reg atTheEndOfTime env i fuel s = some r →
          r.wake = true ∧ i ≤ r.iters ∧
            r.acts = List.replicate (r.iters - i) WaitAction.wfe) :=
  ⟨fun deadline fuel i s r h =>
      mod_dispatch_some_cond resume core reg deadline env fuel i s r h,
   fun fuel i s => mod_dispatch_nil resume core reg env i fuel s,
   fun hnow fuel i s r h =>
      mod_dispatch_eot resume core reg env hnow fuel i s r h⟩

/-! ### Concrete runs (non-vacuity checks for the claims above) -/

/-- A concrete end-of-time dispatch run: nothing pending at first, the
loop enters `__wfe` once; slot 0 fires before the second pass, watcher
thread 7 is resumed and reports progress, and the loop returns. -/
theorem mod_dispatch_concrete_run :
    (mod_dispatch (fun _ => true) 0 regSingle7 atTheEndOfTime
      (fun j => ⟨if j = 0 then [] else [0], 5⟩) 0 3 exClaimed).map
        (fun r => (r.iters, r.acts, r.wake)) =
      some (1, [WaitAction.wfe], true) := by
  decide

/-- A concrete nil-time dispatch run: one pass, no wait, no progress. -/
theorem mod_dispatch_concrete_nil_run :
    (mod_dispatch (fun _ => false) 0 regSingle7 nilTime
      (fun _ => ⟨[], 5⟩) 0 3 exClaimed).map
        (fun r => (r.iters, r.acts, r.wake)) = some (0, [], false) := by
  decide

/-- A concrete slow-path wait run: the try function fails twice, then
returns 4 on its third invocation; the thread suspends twice and the
registry ends up without the watcher. -/
theorem wait_concrete_run :
    (mlua_event_wait true (fun k => if k < 2 then -1 else 4) 0 7 regEmpty 10 =
      .ok (some (4, regEmpty, 2))) ∧
    (mlua_event_wait true (fun _ => 9) 0 7 regEmpty 10 =
      .ok (some (9, regEmpty, 0))) := by
  constructor
  · have h := (wait_try_protocol (fun k => if k < 2 then -1 else 4) 0 7 regEmpty 10).2.1
      (by decide) (by decide) 2 (by decide)
      (fun j h1 h2 => by have hj : j = 1 := by omega
                         subst hj
                         decide)
      (by decide) (by decide)
    rw [h]
    have hr := (wait_try_protocol (fun k => if k < 2 then -1 else 4) 0 7 regEmpty 10).2.2
      (by decide) rfl
    rw [hr]
    rfl
  · exact (wait_try_protocol (fun _ => 9) 0 7 regEmpty 10).1 (by decide) (by decide)

end MLua
